import Mathlib

/-!
Shallow embedding of the numeric core of the repository
(`exercise_3/ex3_utils.py` and `exercise_4/ex4_utils.py`) over the real
numbers, together with theorems settling the frozen claims about it.

Vectors are `List ℝ`; matrices are row-major `List (List ℝ)`.
-/

noncomputable section

/-- Dot product of two vectors, the model of `np.dot` on 1-D arrays. -/
def dot (v w : List ℝ) : ℝ := (List.zipWith (· * ·) v w).sum

/-- Elementwise vector addition (`+` on equally shaped numpy arrays). -/
def vadd (v w : List ℝ) : List ℝ := List.zipWith (· + ·) v w

/-- Elementwise vector subtraction. -/
def vsub (v w : List ℝ) : List ℝ := List.zipWith (· - ·) v w

/-- Scalar times vector. -/
def smul (c : ℝ) (v : List ℝ) : List ℝ := v.map (fun x => c * x)

/-- Column sums of a row-major matrix with `n` columns: the model of
`np.sum(A, axis=0)` for an `m x n` array. -/
def colSum (A : List (List ℝ)) (n : ℕ) : List ℝ :=
  (List.range n).map (fun j => (A.map (fun r => r.getD j 0)).sum)

/-- `sigmoid(z) = 1.0/(1 + np.e**(-z))` from both `ex3_utils.py` and
`ex4_utils.py`. -/
def sigmoid (z : ℝ) : ℝ := 1 / (1 + Real.exp (-z))

/-- `sigmoidGradient(z) = sigmoid(z)*(1-sigmoid(z))` from `ex4_utils.py`. -/
def sigmoidGradient (z : ℝ) : ℝ := sigmoid z * (1 - sigmoid z)

/-- The scalar cost `J` computed by `lrCostFunction(theta, X, y, reg_param)`
in `ex3_utils.py`:
`J = (sum(-y*log(sigmoid(X theta)) - (1-y)*log(1-sigmoid(X theta))))/m
   + (reg_param/m)*sum(theta**2)`
with `m = len(y)`.  Note the source sums `theta**2` over ALL entries. -/
def lrCost (theta : List ℝ) (X : List (List ℝ)) (y : List ℝ) (reg_param : ℝ) : ℝ :=
  let m : ℝ := y.length
  (List.zipWith
    (fun yi xi =>
      -yi * Real.log (sigmoid (dot xi theta)) -
        (1 - yi) * Real.log (1 - sigmoid (dot xi theta))) y X).sum / m +
    (reg_param / m) * (theta.map (fun t => t ^ 2)).sum

/-- The gradient vector returned by `lrCostFunction` in `ex3_utils.py`:
`grad_0 = np.sum((sigmoid(X theta) - y)[:,None]*X, axis=0)/m`,
`grad_reg = grad_0 + (reg_param/m)*theta`, then `grad_reg[0] = grad_0[0]`. -/
def lrGrad (theta : List ℝ) (X : List (List ℝ)) (y : List ℝ) (reg_param : ℝ) : List ℝ :=
  let m : ℝ := y.length
  let grad0 :=
    (colSum (List.zipWith (fun yi xi => smul (sigmoid (dot xi theta) - yi) xi) y X)
      theta.length).map (fun g => g / m)
  (vadd grad0 (smul (reg_param / m) theta)).set 0 (grad0.getD 0 0)

/-- Model of `oneVsAll(X, y, num_labels, reg_param)` from `ex3_utils.py`,
with the scipy minimizer abstracted as a black-box `minimize` taking the
objective (returning cost and gradient, as the source passes `jac=True`)
and the initial vector.  `theta` is kept as its list of columns; the
source writes `theta[:,p_num]`, which raises `IndexError` once
`p_num >= num_labels`, modelled as `none`.  NOTE: the source loop is
`for digit in range(10)`, independent of `num_labels`. -/
def oneVsAll (minimize : (List ℝ → ℝ × List ℝ) → List ℝ → List ℝ)
    (X : List (List ℝ)) (y : List ℕ) (num_labels : ℕ) (reg_param : ℝ) :
    Option (List (List ℝ)) :=
  let n := (X.headD []).length
  let theta0 : List (List ℝ) := List.replicate num_labels (List.replicate n 0)
  (List.range 10).foldlM
    (fun theta p_num =>
      if p_num < num_labels then
        let outcome : List ℝ := y.map (fun yi => if yi = p_num then 1 else 0)
        some (theta.set p_num
          (minimize
            (fun t => (lrCost t X outcome reg_param, lrGrad t X outcome reg_param))
            (theta.getD p_num [])))
      else none)
    theta0

/-- Number of columns a numpy 2-D array would report, for a row-major
uniform list-of-rows matrix. -/
def numCols (M : List (List ℝ)) : ℕ := (M.headD []).length

/-- Model of `np.dot(X, B)` for 2-D `X`, `B`. -/
def matMul (A B : List (List ℝ)) : List (List ℝ) :=
  A.map (fun row =>
    (List.range (numCols B)).map
      (fun j => (List.zipWith (fun a br => a * br.getD j 0) row B).sum))

/-- Model of `np.argmax` on a 1-D array: index of the maximum entry, first
index on ties.  `best` is the index of the running maximum `bv`, and `i`
the index of the head of the remaining list. -/
def argmaxAux : List ℝ → ℕ → ℕ → ℝ → ℕ
  | [], _, best, _ => best
  | x :: xs, i, best, bv =>
    if bv < x then argmaxAux xs (i + 1) i x else argmaxAux xs (i + 1) best bv

/-- `np.argmax` on a nonempty 1-D array (numpy raises on an empty one). -/
def argmax : List ℝ → ℕ
  | [] => 0
  | x :: xs => argmaxAux xs 1 0 x

/-- `predictOneVsAllAccuracy(est_theta, X)` from `ex3_utils.py`:
`probs = np.dot(X, est_theta); return np.argmax(probs, axis=1)`. -/
def predictOneVsAllAccuracy (est_theta X : List (List ℝ)) : List ℕ :=
  (matMul X est_theta).map argmax

/-- One row of the two-layer forward pass in `predict(theta1, theta2, X)`
(identical code in `ex3_utils.py` and `ex4_utils.py`): prepend bias 1,
hidden layer `sigmoid(D1 theta1ᵀ)`, prepend bias 1, output
`sigmoid(... theta2ᵀ)`. -/
def forwardRow (theta1 theta2 : List (List ℝ)) (xi : List ℝ) : List ℝ :=
  let a1 : List ℝ := 1 :: xi
  let a2 : List ℝ := 1 :: theta1.map (fun r => sigmoid (dot r a1))
  theta2.map (fun r => sigmoid (dot r a2))

/-- `predict` on a 2-D `X` (`np.ndim(X) == 2`): per-row forward pass and
row-wise argmax.  `m = len(X)` is the number of rows. -/
def predictMat (theta1 theta2 : List (List ℝ)) (X : List (List ℝ)) : List ℕ :=
  X.map (fun xi => argmax (forwardRow theta1 theta2 xi))

/-- `predict` on a 1-D `X` of length `k`: the source computes
`m = len(X) = k` first, then reshapes `X` to shape `(k, 1)` via
`X.reshape((-1,1))`, i.e. `k` rows of one feature each, and proceeds with
the 2-D code path (the `ones((m,1))` column matches the `k` rows). -/
def predict1D (theta1 theta2 : List (List ℝ)) (x : List ℝ) : List ℕ :=
  predictMat theta1 theta2 (x.map (fun v => [v]))

/-- `computeNumericalGradient(J, theta)` from `ex4_utils.py`: for each
coordinate `p`, the perturbation vector is `tol = 1e-4` at `p` and `0`
elsewhere (the source sets `perturb[p] = tol`, uses it, and resets it to
`0`), and the entry is `(J(theta+perturb) - J(theta-perturb))/(2*tol)`. -/
def computeNumericalGradient (J : List ℝ → ℝ) (theta : List ℝ) : List ℝ :=
  (List.range theta.length).map (fun p =>
    let perturb := (List.range theta.length).map
      (fun k => if k = p then (1e-4 : ℝ) else 0)
    (J (vadd theta perturb) - J (vsub theta perturb)) / (2 * 1e-4))

/-- Row-major reshape of a flat vector into `r` rows of `c` entries,
consuming `c` entries per row. -/
def chunkRows : ℕ → ℕ → List ℝ → List (List ℝ)
  | 0, _, _ => []
  | r + 1, c, v => v.take c :: chunkRows r c (v.drop c)

/-- Model of numpy `v.reshape((r, c))`, which raises unless the element
count matches exactly. -/
def reshape2 (v : List ℝ) (r c : ℕ) : Option (List (List ℝ)) :=
  if v.length = r * c then some (chunkRows r c v) else none

/-- Model of the numpy tail slice `v[-k:]`: the last `k` elements for
`0 < k <= len(v)`, the whole array for `k > len(v)`, and (numpy quirk)
also the whole array for `k = 0` since `v[-0:]` is `v[0:]`. -/
def negSlice (v : List ℝ) (k : ℕ) : List ℝ :=
  if k = 0 then v else v.drop (v.length - k)

/-- One-hot row `i` of `init_y` in `nnCostFunction`: zeros with a `1` at
the label position. -/
def oneHot (nl : ℕ) (lab : ℕ) : List ℝ :=
  (List.range nl).map (fun j => if j = lab then 1 else 0)

/-- `np.dot(M, v)` for a 2-D `M` and 1-D `v`. -/
def matVec (M : List (List ℝ)) (v : List ℝ) : List ℝ := M.map (fun r => dot r v)

/-- `np.dot(M.T, v)`: entry `j` is the dot product of column `j` of `M`
with `v`. -/
def transposeMatVec (M : List (List ℝ)) (v : List ℝ) : List ℝ :=
  (List.range (numCols M)).map
    (fun j => (List.zipWith (fun r vi => r.getD j 0 * vi) M v).sum)

/-- `np.zeros_like(M)`. -/
def zerosLike (M : List (List ℝ)) : List (List ℝ) :=
  M.map (fun r => r.map (fun _ => (0 : ℝ)))

/-- Elementwise matrix addition. -/
def madd (A B : List (List ℝ)) : List (List ℝ) := List.zipWith vadd A B

/-- Scalar times matrix. -/
def smulMat (c : ℝ) (A : List (List ℝ)) : List (List ℝ) := A.map (smul c)

/-- Outer product `np.dot(v, w.T)` of two column vectors. -/
def outer (v w : List ℝ) : List (List ℝ) := v.map (fun a => smul a w)

/-- `a1 = d[i][:,None]` in `nnCostFunction`: sample `i` of `X` with the
bias 1 prepended (`d = np.hstack((ones, X))`). -/
def a1v (xi : List ℝ) : List ℝ := 1 :: xi

/-- `z2 = np.dot(theta1, a1)`. -/
def z2v (theta1 : List (List ℝ)) (xi : List ℝ) : List ℝ := matVec theta1 (a1v xi)

/-- `a2 = np.vstack((np.ones(1), sigmoid(z2)))`. -/
def a2v (theta1 : List (List ℝ)) (xi : List ℝ) : List ℝ :=
  1 :: (z2v theta1 xi).map sigmoid

/-- `h = sigmoid(np.dot(theta2, a2))`. -/
def hv (theta1 theta2 : List (List ℝ)) (xi : List ℝ) : List ℝ :=
  (matVec theta2 (a2v theta1 xi)).map sigmoid

/-- `d3 = a3 - init_y[i]`. -/
def d3v (theta1 theta2 : List (List ℝ)) (nl yi : ℕ) (xi : List ℝ) : List ℝ :=
  vsub (hv theta1 theta2 xi) (oneHot nl yi)

/-- `d2 = np.dot(theta2.T, d3)[1:] * sigmoidGradient(z2)`. -/
def d2v (theta1 theta2 : List (List ℝ)) (nl yi : ℕ) (xi : List ℝ) : List ℝ :=
  List.zipWith (· * ·) ((transposeMatVec theta2 (d3v theta1 theta2 nl yi xi)).tail)
    ((z2v theta1 xi).map sigmoidGradient)

/-- `cost[i]*m`: the numerator `np.sum(-init_y[i]*log(h) - (1-init_y[i])*log(1-h))`
of the per-sample cross-entropy term in `nnCostFunction`. -/
def sampleCost (theta1 theta2 : List (List ℝ)) (nl yi : ℕ) (xi : List ℝ) : ℝ :=
  (List.zipWith (fun t hj => -t * Real.log hj - (1 - t) * Real.log (1 - hj))
    (oneHot nl yi) (hv theta1 theta2 xi)).sum

/-- The accumulation loop of `nnCostFunction`:
`D1 += np.dot(d2, a1.T)`, `D2 += np.dot(d3, a2.T)` over the samples,
starting from `np.zeros_like(theta1)`, `np.zeros_like(theta2)`. -/
def nnAccum (theta1 theta2 : List (List ℝ)) (nl : ℕ)
    (samples : List (ℕ × List ℝ)) : List (List ℝ) × List (List ℝ) :=
  samples.foldl
    (fun D s =>
      (madd D.1 (outer (d2v theta1 theta2 nl s.1 s.2) (a1v s.2)),
       madd D.2 (outer (d3v theta1 theta2 nl s.1 s.2) (a2v theta1 s.2))))
    (zerosLike theta1, zerosLike theta2)

/-- `reg = (reg_param/(2*m))*(np.sum(theta1[:,1:]**2) + np.sum(theta2[:,1:]**2))`. -/
def regTerm (theta1 theta2 : List (List ℝ)) (reg_param m : ℝ) : ℝ :=
  (reg_param / (2 * m)) *
    ((theta1.map (fun r => (r.tail.map (fun t => t ^ 2)).sum)).sum +
      (theta2.map (fun r => (r.tail.map (fun t => t ^ 2)).sum)).sum)

/-- The final-gradient step of `nnCostFunction`:
`grad = (1.0/m)*D + (reg_param/m)*T` followed by
`grad[0] = grad[0] - (reg_param/m)*T[0]`. -/
def finalGrad (D T : List (List ℝ)) (reg_param m : ℝ) : List (List ℝ) :=
  let g := madd (smulMat (1 / m) D) (smulMat (reg_param / m) T)
  g.set 0 (vsub (g.getD 0 []) (smul (reg_param / m) (T.getD 0 [])))

/-- The body of `nnCostFunction` after the two reshapes: returns
`(final_cost, grad1, grad2)`.  The source loops `for i in range(m)` with
`m = len(y)` over `d[i]` and `init_y[i]`; with `len(y) = len(X)` (which
`np.hstack` forces) this is the fold over `y.zip X`. -/
def nnBody (theta1 theta2 : List (List ℝ)) (X : List (List ℝ)) (y : List ℕ)
    (nl : ℕ) (reg_param : ℝ) : ℝ × List (List ℝ) × List (List ℝ) :=
  let m : ℝ := y.length
  let samples := y.zip X
  let D := nnAccum theta1 theta2 nl samples
  ((samples.map (fun s => sampleCost theta1 theta2 nl s.1 s.2 / m)).sum +
      regTerm theta1 theta2 reg_param m,
    finalGrad D.1 theta1 reg_param m, finalGrad D.2 theta2 reg_param m)

/-- `nnCostFunction(nn_params, input_layer_size, hidden_layer_size,
num_labels, X, y, reg_param)` from `ex4_utils.py`.  `theta1` is reshaped
from `nn_params[:hidden_layer_size*(input_layer_size+1)]` and `theta2`
from `nn_params[-((hidden_layer_size+1)*num_labels):]`; there is no length
check on `nn_params` beyond what the two reshapes require.  Returns
`(final_cost, np.append(grad1, grad2).reshape(-1))`. -/
def nnCostFunction (nn_params : List ℝ) (ils hls nl : ℕ) (X : List (List ℝ))
    (y : List ℕ) (reg_param : ℝ) : Option (ℝ × List ℝ) :=
  match reshape2 (nn_params.take (hls * (ils + 1))) hls (ils + 1),
      reshape2 (negSlice nn_params ((hls + 1) * nl)) nl (hls + 1) with
  | some theta1, some theta2 =>
    let r := nnBody theta1 theta2 X y nl reg_param
    some (r.1, r.2.1.flatten ++ r.2.2.flatten)
  | _, _ => none

/-- The unroll (`np.append(.,.).reshape(-1)`) of the two matrices obtained
by `nnCostFunction`'s reshape of `nn_params`. -/
def unrollReshape (v : List ℝ) (ils hls nl : ℕ) : Option (List ℝ) :=
  match reshape2 (v.take (hls * (ils + 1))) hls (ils + 1),
      reshape2 (negSlice v ((hls + 1) * nl)) nl (hls + 1) with
  | some theta1, some theta2 => some (theta1.flatten ++ theta2.flatten)
  | _, _ => none

end

/-! ### Generic list-indexing lemmas -/

theorem getD_of_lt {α β : Type} (f : α → β) (l : List α) (j : ℕ) (d : α) (e : β)
    (h : j < l.length) : (l.map f).getD j e = f (l.getD j d) := by
  rw [List.getD_eq_getElem l d h, List.getD_eq_getElem _ e (by simpa using h),
    List.getElem_map]

theorem getD_zipWith_of_lt {α β γ : Type} (f : α → β → γ) (l₁ : List α) (l₂ : List β)
    (j : ℕ) (d₁ : α) (d₂ : β) (e : γ) (h₁ : j < l₁.length) (h₂ : j < l₂.length) :
    (List.zipWith f l₁ l₂).getD j e = f (l₁.getD j d₁) (l₂.getD j d₂) := by
  rw [List.getD_eq_getElem l₁ d₁ h₁, List.getD_eq_getElem l₂ d₂ h₂,
    List.getD_eq_getElem _ e (by simp [List.length_zipWith]; omega),
    List.getElem_zipWith]

theorem getD_range_map {β : Type} (f : ℕ → β) (n j : ℕ) (e : β) (h : j < n) :
    ((List.range n).map f).getD j e = f j := by
  rw [getD_of_lt f _ j 0 e (by simpa using h), List.getD_eq_getElem _ 0 (by simpa using h),
    List.getElem_range]

theorem getD_set_same {α : Type} (l : List α) (a d : α) (i : ℕ) (h : i < l.length) :
    (l.set i a).getD i d = a := by
  rw [List.getD_eq_getElem _ d (show i < (l.set i a).length by simpa using h)]
  simp [List.getElem_set]

theorem getD_set_ne {α : Type} (l : List α) (a d : α) (i j : ℕ) (hij : i ≠ j) :
    (l.set i a).getD j d = l.getD j d := by
  by_cases h : j < l.length
  · rw [List.getD_eq_getElem _ d (show j < (l.set i a).length by simpa using h),
      List.getD_eq_getElem _ d h, List.getElem_set_ne hij]
  · have h1 : l.length ≤ j := le_of_not_lt h
    rw [List.getD_eq_default _ _ (by simpa using h1), List.getD_eq_default _ _ h1]

theorem smul_getD (c : ℝ) (v : List ℝ) (j : ℕ) :
    (smul c v).getD j 0 = c * v.getD j 0 := by
  by_cases h : j < v.length
  · exact getD_of_lt _ v j 0 0 h
  · have h1 : v.length ≤ j := le_of_not_lt h
    rw [List.getD_eq_default _ _ (show (smul c v).length ≤ j by simpa [smul] using h1),
      List.getD_eq_default _ _ h1, mul_zero]

theorem vadd_getD (v w : List ℝ) (j : ℕ) (h₁ : j < v.length) (h₂ : j < w.length) :
    (vadd v w).getD j 0 = v.getD j 0 + w.getD j 0 :=
  getD_zipWith_of_lt _ v w j 0 0 0 h₁ h₂

theorem colSum_getD (A : List (List ℝ)) (n j : ℕ) (h : j < n) :
    (colSum A n).getD j 0 = (A.map (fun r => r.getD j 0)).sum :=
  getD_range_map _ n j 0 h

theorem vadd_length (v w : List ℝ) : (vadd v w).length = min v.length w.length := by
  simp [vadd]

theorem smul_length (c : ℝ) (v : List ℝ) : (smul c v).length = v.length := by
  simp [smul]

theorem lrGrad_column_sum (theta : List ℝ) (X : List (List ℝ)) (y : List ℝ) (j : ℕ) :
    (List.zipWith (fun yi xi => smul (sigmoid (dot xi theta) - yi) xi) y X).map
        (fun r => r.getD j 0) =
      List.zipWith (fun yi xi => xi.getD j 0 * (sigmoid (dot xi theta) - yi)) y X := by
  rw [List.map_zipWith]
  have h : (fun (yi : ℝ) (xi : List ℝ) =>
      (smul (sigmoid (dot xi theta) - yi) xi).getD j 0) =
      fun yi xi => xi.getD j 0 * (sigmoid (dot xi theta) - yi) := by
    funext yi xi
    rw [smul_getD]
    ring
  rw [h]

/-- **C7.** The gradient returned by `lrCostFunction` equals
`(1/m) * Xᵀ(sigmoid(Xθ) - y)` plus `(reg_param/m)*θ` at every index except
index 0, which keeps the unregularized value. -/
theorem lrGrad_unreg_bias (theta : List ℝ) (X : List (List ℝ)) (y : List ℝ)
    (reg_param : ℝ) (hrows : ∀ r ∈ X, r.length = theta.length)
    (hlen : y.length = X.length) :
    (lrGrad theta X y reg_param).length = theta.length ∧
    ∀ j, j < theta.length →
      (lrGrad theta X y reg_param).getD j 0 =
        (1 / (y.length : ℝ)) *
          (List.zipWith (fun yi xi => xi.getD j 0 * (sigmoid (dot xi theta) - yi))
            y X).sum +
        (if j = 0 then 0
         else (reg_param / (y.length : ℝ)) * theta.getD j 0) := by
  have hcol : (colSum (List.zipWith
      (fun yi xi => smul (sigmoid (dot xi theta) - yi) xi) y X)
      theta.length).length = theta.length := by
    simp [colSum]
  have hg0len : ((colSum (List.zipWith
      (fun yi xi => smul (sigmoid (dot xi theta) - yi) xi) y X)
      theta.length).map (fun g => g / (y.length : ℝ))).length = theta.length := by
    simpa using hcol
  have hg0 : ∀ j, j < theta.length →
      ((colSum (List.zipWith
        (fun yi xi => smul (sigmoid (dot xi theta) - yi) xi) y X)
        theta.length).map (fun g => g / (y.length : ℝ))).getD j 0 =
      (1 / (y.length : ℝ)) *
        (List.zipWith (fun yi xi => xi.getD j 0 * (sigmoid (dot xi theta) - yi))
          y X).sum := by
    intro j hj
    rw [getD_of_lt _ _ j 0 0 (by rw [hcol]; exact hj)]
    · rw [colSum_getD _ _ _ hj, lrGrad_column_sum]
      ring
  constructor
  · simp [lrGrad, vadd, smul, colSum]
  · intro j hj
    by_cases hj0 : j = 0
    · subst hj0
      show ((vadd _ _).set 0 _).getD 0 0 = _
      rw [getD_set_same _ _ _ _
          (by rw [vadd_length, smul_length, hg0len, min_self]; exact hj),
        hg0 0 hj, if_pos rfl, add_zero]
    · show ((vadd _ _).set 0 _).getD j 0 = _
      rw [getD_set_ne _ _ _ _ _ (fun h => hj0 h.symm),
        vadd_getD _ _ _ (by rw [hg0len]; exact hj) (by rw [smul_length]; exact hj),
        hg0 j hj, smul_getD, if_neg hj0]

/-- Witness for **C7** at `theta = [1,2]`, `X = [[1,1]]`, `y = [1]`,
`reg_param = 1`, for the indices `j = 0` and `j = 1`. -/
theorem lrGrad_unreg_bias_witness :
    (lrGrad [1, 2] [[1, 1]] [1] 1).length = ([1, 2] : List ℝ).length ∧
    (lrGrad [1, 2] [[1, 1]] [1] 1).getD 0 0 =
      (1 / ((([1] : List ℝ).length : ℝ))) *
        (List.zipWith (fun yi xi => xi.getD 0 0 * (sigmoid (dot xi [1, 2]) - yi))
          [1] [[1, 1]]).sum +
      (if (0 : ℕ) = 0 then 0
       else ((1 : ℝ) / (([1] : List ℝ).length : ℝ)) * ([1, 2] : List ℝ).getD 0 0) ∧
    (lrGrad [1, 2] [[1, 1]] [1] 1).getD 1 0 =
      (1 / ((([1] : List ℝ).length : ℝ))) *
        (List.zipWith (fun yi xi => xi.getD 1 0 * (sigmoid (dot xi [1, 2]) - yi))
          [1] [[1, 1]]).sum +
      (if (1 : ℕ) = 0 then 0
       else ((1 : ℝ) / (([1] : List ℝ).length : ℝ)) * ([1, 2] : List ℝ).getD 1 0) :=
  ⟨(lrGrad_unreg_bias [1, 2] [[1, 1]] [1] 1 (by simp) (by simp)).1,
    (lrGrad_unreg_bias [1, 2] [[1, 1]] [1] 1 (by simp) (by simp)).2 0 (by norm_num),
    (lrGrad_unreg_bias [1, 2] [[1, 1]] [1] 1 (by simp) (by simp)).2 1 (by norm_num)⟩

theorem chunkRows_flatten (r c : ℕ) (v : List ℝ) (h : v.length = r * c) :
    (chunkRows r c v).flatten = v := by
  induction r generalizing v with
  | zero =>
    rw [Nat.zero_mul] at h
    rw [chunkRows, List.flatten_nil, List.eq_nil_of_length_eq_zero h]
  | succ r ih =>
    rw [chunkRows, List.flatten_cons,
      ih (v.drop c) (by rw [List.length_drop, h, Nat.succ_mul]; omega),
      List.take_append_drop]

theorem negSlice_length (v : List ℝ) (k : ℕ) (hk : k ≠ 0) (hle : k ≤ v.length) :
    (negSlice v k).length = k := by
  rw [negSlice, if_neg hk, List.length_drop]
  omega

/-- **C6.** For every layer-size triple with at least one output unit and
every `nn_params` of the matching length, unrolling the two matrices
obtained by `nnCostFunction`'s reshape of `nn_params` reproduces
`nn_params` exactly. -/
theorem unroll_reshape_roundtrip (ils hls nl : ℕ) (v : List ℝ) (hnl : 0 < nl)
    (hlen : v.length = hls * (ils + 1) + nl * (hls + 1)) :
    unrollReshape v ils hls nl = some v := by
  have hcomm : (hls + 1) * nl = nl * (hls + 1) := Nat.mul_comm _ _
  have hk : (hls + 1) * nl ≠ 0 := Nat.mul_ne_zero (by omega) (by omega)
  have h1 : (v.take (hls * (ils + 1))).length = hls * (ils + 1) := by
    rw [List.length_take]
    omega
  have h2 : (negSlice v ((hls + 1) * nl)).length = nl * (hls + 1) := by
    rw [negSlice_length v _ hk (by rw [hcomm]; omega)]
    exact hcomm
  have e1 : reshape2 (v.take (hls * (ils + 1))) hls (ils + 1) =
      some (chunkRows hls (ils + 1) (v.take (hls * (ils + 1)))) := by
    rw [reshape2, if_pos h1]
  have e2 : reshape2 (negSlice v ((hls + 1) * nl)) nl (hls + 1) =
      some (chunkRows nl (hls + 1) (negSlice v ((hls + 1) * nl))) := by
    rw [reshape2, if_pos h2]
  have e3 : negSlice v ((hls + 1) * nl) = v.drop (hls * (ils + 1)) := by
    rw [negSlice, if_neg hk]
    congr 1
    rw [hcomm, hlen]
    omega
  simp only [unrollReshape, e1, e2]
  rw [chunkRows_flatten _ _ _ h1, chunkRows_flatten _ _ _ h2, e3,
    List.take_append_drop]

/-- Witness for **C6** at `(ils, hls, nl) = (1, 1, 1)` and
`nn_params = [1,2,3,4]` (the matching length is `1*2 + 1*2 = 4`). -/
theorem unroll_reshape_roundtrip_witness :
    unrollReshape [1, 2, 3, 4] 1 1 1 = some [1, 2, 3, 4] :=
  unroll_reshape_roundtrip 1 1 1 [1, 2, 3, 4] (by omega) rfl

/-- **C4, counterexample.** The claim says every `nn_params` whose length
differs from `hls*(ils+1) + nl*(hls+1)` is rejected before any
computation; but with `(ils, hls, nl) = (1, 1, 1)` (required length 4) the
over-long `nn_params = [0,0,0,0,0]` is silently accepted: `theta1` comes
from the first two entries, `theta2` from the last two, and the middle
entry is ignored. -/
theorem nnCostFunction_accepts_overlong :
    (nnCostFunction [0, 0, 0, 0, 0] 1 1 1 [[0]] [0] 0).isSome = true ∧
    ([0, 0, 0, 0, 0] : List ℝ).length ≠ 1 * (1 + 1) + 1 * (1 + 1) := by
  exact ⟨rfl, by norm_num⟩

/-- **C4, amended.** `nnCostFunction` performs no length validation on
`nn_params`: whenever `nn_params` is long enough for both slices (in
particular whenever it is over-long), the call succeeds, and its result
only depends on the leading `hls*(ils+1)` and trailing `(hls+1)*nl`
entries — any middle entries are silently ignored. -/
theorem nnCostFunction_ignores_middle (nn_params : List ℝ) (ils hls nl : ℕ)
    (X : List (List ℝ)) (y : List ℕ) (reg_param : ℝ)
    (h1 : hls * (ils + 1) ≤ nn_params.length)
    (h2 : (hls + 1) * nl ≤ nn_params.length) (h3 : 0 < nl) :
    (nnCostFunction nn_params ils hls nl X y reg_param).isSome = true ∧
    nnCostFunction nn_params ils hls nl X y reg_param =
      nnCostFunction
        (nn_params.take (hls * (ils + 1)) ++ negSlice nn_params ((hls + 1) * nl))
        ils hls nl X y reg_param := by
  have hk : (hls + 1) * nl ≠ 0 := Nat.mul_ne_zero (by omega) (by omega)
  have ht : (nn_params.take (hls * (ils + 1))).length = hls * (ils + 1) := by
    rw [List.length_take]
    omega
  have hn : (negSlice nn_params ((hls + 1) * nl)).length = (hls + 1) * nl :=
    negSlice_length _ _ hk h2
  constructor
  · have e1 : reshape2 (nn_params.take (hls * (ils + 1))) hls (ils + 1) =
        some (chunkRows hls (ils + 1) (nn_params.take (hls * (ils + 1)))) := by
      rw [reshape2, if_pos ht]
    have e2 : reshape2 (negSlice nn_params ((hls + 1) * nl)) nl (hls + 1) =
        some (chunkRows nl (hls + 1) (negSlice nn_params ((hls + 1) * nl))) := by
      rw [reshape2, if_pos (by rw [hn]; exact Nat.mul_comm _ _)]
    simp only [nnCostFunction, e1, e2, Option.isSome_some]
  · have ea : (nn_params.take (hls * (ils + 1)) ++
        negSlice nn_params ((hls + 1) * nl)).take (hls * (ils + 1)) =
        nn_params.take (hls * (ils + 1)) := by
      rw [List.take_append_of_le_length (by rw [ht])]
      rw [List.take_of_length_le (by rw [ht])]
    have eb : negSlice (nn_params.take (hls * (ils + 1)) ++
        negSlice nn_params ((hls + 1) * nl)) ((hls + 1) * nl) =
        negSlice nn_params ((hls + 1) * nl) := by
      rw [negSlice, if_neg hk, List.length_append, ht, hn]
      rw [show hls * (ils + 1) + (hls + 1) * nl - (hls + 1) * nl =
        (nn_params.take (hls * (ils + 1))).length by rw [ht]; omega]
      exact List.drop_left _ _
    simp only [nnCostFunction, ea, eb]

/-- Witness for **C4 (amended)** at the over-long input of the
counterexample. -/
theorem nnCostFunction_ignores_middle_witness :
    (nnCostFunction [0, 0, 0, 0, 0] 1 1 1 [[0]] [0] 0).isSome = true ∧
    nnCostFunction [0, 0, 0, 0, 0] 1 1 1 [[0]] [0] 0 =
      nnCostFunction
        (([0, 0, 0, 0, 0] : List ℝ).take (1 * (1 + 1)) ++
          negSlice [0, 0, 0, 0, 0] ((1 + 1) * 1)) 1 1 1 [[0]] [0] 0 :=
  nnCostFunction_ignores_middle [0, 0, 0, 0, 0] 1 1 1 [[0]] [0] 0
    (by norm_num) (by norm_num) (by norm_num)

/-- **C3.** The claim says `oneVsAll` fits exactly one classifier per class
label in `[0, num_labels)`.  The source loop is `for digit in range(10)`,
independent of `num_labels` (contradicting the function's own docstring):
with `num_labels = 2` the loop reaches `digit = 2` and the column write
`theta[:,2]` fails (modelled as `none`); with `num_labels = 11` only the
first ten columns are ever fitted and column 10 keeps its zero
initialization even though the minimizer always returns `[5]`. -/
theorem oneVsAll_loops_over_ten :
    oneVsAll (fun _ t0 => t0) [[1]] [0] 2 0 = none ∧
    oneVsAll (fun _ _ => [5]) [[1]] [0] 11 0 =
      some [[5], [5], [5], [5], [5], [5], [5], [5], [5], [5], [0]] :=
  ⟨rfl, rfl⟩

theorem argmaxAux_spec (xs : List ℝ) (i best : ℕ) (bv : ℝ) :
    (argmaxAux xs i best bv = best ∧ ∀ j, j < xs.length → xs.getD j 0 ≤ bv) ∨
    (∃ j, j < xs.length ∧ argmaxAux xs i best bv = i + j ∧
      bv < xs.getD j 0 ∧ (∀ k, k < xs.length → xs.getD k 0 ≤ xs.getD j 0) ∧
      ∀ k, k < j → xs.getD k 0 < xs.getD j 0) := by
  induction xs generalizing i best bv with
  | nil =>
    left
    exact ⟨rfl, fun j hj => absurd hj (by simp)⟩
  | cons x xs ih =>
    by_cases hx : bv < x
    · right
      rw [argmaxAux, if_pos hx]
      rcases ih (i + 1) i x with ⟨heq, hle⟩ | ⟨j, hj, heq, hlt, hmax, hpre⟩
      · refine ⟨0, by simp, by rw [heq]; omega, by simpa using hx, ?hm, ?hp⟩
        case hm =>
          intro k hk
          cases k with
          | zero => simp
          | succ k =>
            rw [List.getD_cons_succ, List.getD_cons_zero]
            exact hle k (by simpa using hk)
        case hp =>
          intro k hk
          omega
      · refine ⟨j + 1, by simpa using hj, by rw [heq]; omega, ?hb, ?hm, ?hp⟩
        case hb =>
          rw [List.getD_cons_succ]
          exact lt_trans hx hlt
        case hm =>
          intro k hk
          cases k with
          | zero =>
            rw [List.getD_cons_zero, List.getD_cons_succ]
            exact le_of_lt hlt
          | succ k =>
            rw [List.getD_cons_succ, List.getD_cons_succ]
            exact hmax k (by simpa using hk)
        case hp =>
          intro k hk
          cases k with
          | zero =>
            rw [List.getD_cons_zero, List.getD_cons_succ]
            exact hlt
          | succ k =>
            rw [List.getD_cons_succ, List.getD_cons_succ]
            exact hpre k (by omega)
    · rw [argmaxAux, if_neg hx]
      rcases ih (i + 1) best bv with ⟨heq, hle⟩ | ⟨j, hj, heq, hlt, hmax, hpre⟩
      · left
        refine ⟨heq, fun j hj => ?_⟩
        cases j with
        | zero =>
          rw [List.getD_cons_zero]
          exact le_of_not_lt hx
        | succ j =>
          rw [List.getD_cons_succ]
          exact hle j (by simpa using hj)
      · right
        refine ⟨j + 1, by simpa using hj, by rw [heq]; omega, ?hb, ?hm, ?hp⟩
        case hb =>
          rw [List.getD_cons_succ]
          exact hlt
        case hm =>
          intro k hk
          cases k with
          | zero =>
            rw [List.getD_cons_zero, List.getD_cons_succ]
            exact le_of_lt (lt_of_le_of_lt (le_of_not_lt hx) hlt)
          | succ k =>
            rw [List.getD_cons_succ, List.getD_cons_succ]
            exact hmax k (by simpa using hk)
        case hp =>
          intro k hk
          cases k with
          | zero =>
            rw [List.getD_cons_zero, List.getD_cons_succ]
            exact lt_of_le_of_lt (le_of_not_lt hx) hlt
          | succ k =>
            rw [List.getD_cons_succ, List.getD_cons_succ]
            exact hpre k (by omega)

/-- `argmax` returns an in-range index holding the maximum value, and every
strictly earlier index holds a strictly smaller value (first-index
tie-break). -/
theorem argmax_spec (v : List ℝ) (hv : v ≠ []) :
    argmax v < v.length ∧
    (∀ k, k < v.length → v.getD k 0 ≤ v.getD (argmax v) 0) ∧
    ∀ k, k < argmax v → v.getD k 0 < v.getD (argmax v) 0 := by
  match v, hv with
  | x :: xs, _ =>
    have e : argmax (x :: xs) = argmaxAux xs 1 0 x := rfl
    rcases argmaxAux_spec xs 1 0 x with ⟨heq, hle⟩ | ⟨j, hj, heq, hlt, hmax, hpre⟩
    · rw [e, heq]
      refine ⟨by simp, fun k hk => ?_, fun k hk => absurd hk (by omega)⟩
      cases k with
      | zero => simp
      | succ k =>
        rw [List.getD_cons_succ, List.getD_cons_zero]
        exact hle k (by simpa using hk)
    · rw [e, heq]
      have e1 : (x :: xs).getD (1 + j) 0 = xs.getD j 0 := by
        rw [Nat.add_comm, List.getD_cons_succ]
      refine ⟨by simp; omega, fun k hk => ?_, fun k hk => ?_⟩
      · rw [e1]
        cases k with
        | zero =>
          rw [List.getD_cons_zero]
          exact le_of_lt hlt
        | succ k =>
          rw [List.getD_cons_succ]
          exact hmax k (by simpa using hk)
      · rw [e1]
        cases k with
        | zero =>
          rw [List.getD_cons_zero]
          exact hlt
        | succ k =>
          rw [List.getD_cons_succ]
          exact hpre k (by omega)

/-- **C8.** `predictOneVsAllAccuracy` returns, for each of the `m` samples,
the first index achieving the maximum of the corresponding row of the raw
linear score matrix `np.dot(X, est_theta)` (no sigmoid is applied); every
returned label lies in `[0, num_labels)` and the output has length `m`. -/
theorem predictOneVsAll_argmax (est_theta X : List (List ℝ)) (num_labels : ℕ)
    (hne : est_theta ≠ []) (hcols : ∀ r ∈ est_theta, r.length = num_labels)
    (hpos : 0 < num_labels) :
    (predictOneVsAllAccuracy est_theta X).length = X.length ∧
    ∀ i, i < X.length →
      (predictOneVsAllAccuracy est_theta X).getD i 0 < num_labels ∧
      (∀ k, k < num_labels →
        ((matMul X est_theta).getD i []).getD k 0 ≤
          ((matMul X est_theta).getD i []).getD
            ((predictOneVsAllAccuracy est_theta X).getD i 0) 0) ∧
      ∀ k, k < (predictOneVsAllAccuracy est_theta X).getD i 0 →
        ((matMul X est_theta).getD i []).getD k 0 <
          ((matMul X est_theta).getD i []).getD
            ((predictOneVsAllAccuracy est_theta X).getD i 0) 0 := by
  have hnc : numCols est_theta = num_labels := by
    match est_theta, hne with
    | r :: rest, _ => exact hcols r (by simp)
  have hmmlen : (matMul X est_theta).length = X.length := by
    simp [matMul]
  have hrowlen : ∀ i, i < X.length →
      ((matMul X est_theta).getD i []).length = num_labels := by
    intro i hi
    rw [matMul, getD_of_lt _ X i [] [] hi]
    simp [hnc]
  constructor
  · simp [predictOneVsAllAccuracy, hmmlen]
  · intro i hi
    have hrow : ((matMul X est_theta).getD i []) ≠ [] := by
      have := hrowlen i hi
      intro hcon
      rw [hcon] at this
      simp at this
      omega
    have hpred : (predictOneVsAllAccuracy est_theta X).getD i 0 =
        argmax ((matMul X est_theta).getD i []) := by
      rw [predictOneVsAllAccuracy, getD_of_lt _ _ i [] 0 (by rw [hmmlen]; exact hi)]
    rcases argmax_spec ((matMul X est_theta).getD i []) hrow with ⟨h1, h2, h3⟩
    rw [hrowlen i hi] at h1 h2
    exact ⟨by rw [hpred]; exact h1, fun k hk => by rw [hpred]; exact h2 k hk,
      fun k hk => by rw [hpred] at hk ⊢; exact h3 k hk⟩

/-- Witness for **C8** at `est_theta = [[1, 0]]` (one feature, two classes)
and `X = [[1]]`, for sample `i = 0` and score indices `k = 0, 1`. -/
theorem predictOneVsAll_argmax_witness :
    (predictOneVsAllAccuracy [[1, 0]] [[1]]).length = ([[1]] : List (List ℝ)).length ∧
    (predictOneVsAllAccuracy [[1, 0]] [[1]]).getD 0 0 < 2 ∧
    ((matMul [[1]] [[1, 0]]).getD 0 []).getD 0 0 ≤
      ((matMul [[1]] [[1, 0]]).getD 0 []).getD
        ((predictOneVsAllAccuracy [[1, 0]] [[1]]).getD 0 0) 0 ∧
    ((matMul [[1]] [[1, 0]]).getD 0 []).getD 1 0 ≤
      ((matMul [[1]] [[1, 0]]).getD 0 []).getD
        ((predictOneVsAllAccuracy [[1, 0]] [[1]]).getD 0 0) 0 := by
  have h := predictOneVsAll_argmax [[1, 0]] [[1]] 2 (by simp) (by simp) (by omega)
  exact ⟨h.1, (h.2 0 (by norm_num)).1, (h.2 0 (by norm_num)).2.1 0 (by norm_num),
    (h.2 0 (by norm_num)).2.1 1 (by norm_num)⟩

theorem zipWith_theta_range_map (f : ℝ → ℝ → ℝ) (g : ℕ → ℝ) (theta : List ℝ) :
    List.zipWith f theta ((List.range theta.length).map g) =
      (List.range theta.length).map (fun k => f (theta.getD k 0) (g k)) := by
  apply List.ext_getElem
  · simp
  · intro n h1 h2
    have hn : n < theta.length := by
      simp [List.length_zipWith] at h1
      omega
    simp only [List.getElem_zipWith, List.getElem_map, List.getElem_range]
    rw [List.getD_eq_getElem theta 0 hn]

/-- **C9.** `computeNumericalGradient` returns a vector of the same length
as `theta` whose entry `p` is the central finite difference
`(J(theta + eps*e_p) - J(theta - eps*e_p)) / (2*eps)` with `eps = 1e-4`
and `e_p` the `p`-th standard basis vector: each evaluation of `J`
perturbs exactly coordinate `p` and keeps every other coordinate of
`theta` fixed. -/
theorem computeNumericalGradient_spec (J : List ℝ → ℝ) (theta : List ℝ) :
    (computeNumericalGradient J theta).length = theta.length ∧
    ∀ p, p < theta.length →
      (computeNumericalGradient J theta).getD p 0 =
        (J ((List.range theta.length).map
            (fun k => theta.getD k 0 + if k = p then (1e-4 : ℝ) else 0)) -
          J ((List.range theta.length).map
            (fun k => theta.getD k 0 - if k = p then (1e-4 : ℝ) else 0))) /
        (2 * 1e-4) := by
  constructor
  · simp [computeNumericalGradient]
  · intro p hp
    rw [computeNumericalGradient, getD_range_map _ _ _ _ hp]
    dsimp only
    rw [show vadd theta ((List.range theta.length).map
          (fun k => if k = p then (1e-4 : ℝ) else 0)) =
        (List.range theta.length).map
          (fun k => theta.getD k 0 + if k = p then (1e-4 : ℝ) else 0) from
      zipWith_theta_range_map (· + ·) _ theta]
    rw [show vsub theta ((List.range theta.length).map
          (fun k => if k = p then (1e-4 : ℝ) else 0)) =
        (List.range theta.length).map
          (fun k => theta.getD k 0 - if k = p then (1e-4 : ℝ) else 0) from
      zipWith_theta_range_map (· - ·) _ theta]

/-- Witness for **C9** at `J = List.sum`, `theta = [1, 2]`, `p = 0`. -/
theorem computeNumericalGradient_witness :
    (computeNumericalGradient List.sum [1, 2]).length = ([1, 2] : List ℝ).length ∧
    (computeNumericalGradient List.sum [1, 2]).getD 0 0 =
      (List.sum ((List.range 2).map
          (fun k => ([1, 2] : List ℝ).getD k 0 + if k = 0 then (1e-4 : ℝ) else 0)) -
        List.sum ((List.range 2).map
          (fun k => ([1, 2] : List ℝ).getD k 0 - if k = 0 then (1e-4 : ℝ) else 0))) /
      (2 * 1e-4) :=
  ⟨(computeNumericalGradient_spec List.sum [1, 2]).1,
    (computeNumericalGradient_spec List.sum [1, 2]).2 0 (by norm_num)⟩

/-- **C10.** On a one-dimensional input `x` of length `k`, `predict`
computes `m = len(x) = k` before reshaping `x` to shape `(k, 1)`, so `x`
is treated as `k` samples of one feature each: the result has length `k`,
and entry `i` is the forward-pass classification of the single-feature
sample `[x[i]]`. -/
theorem predict1D_per_sample (theta1 theta2 : List (List ℝ)) (x : List ℝ) :
    (predict1D theta1 theta2 x).length = x.length ∧
    ∀ i, i < x.length →
      (predict1D theta1 theta2 x).getD i 0 =
        argmax (forwardRow theta1 theta2 [x.getD i 0]) := by
  constructor
  · simp [predict1D, predictMat]
  · intro i hi
    show ((x.map (fun v => [v])).map
      (fun xi => argmax (forwardRow theta1 theta2 xi))).getD i 0 = _
    rw [List.map_map]
    exact getD_of_lt _ x i 0 0 hi

/-- Witness for **C10** at `theta1 = theta2 = [[0, 0]]`, `x = [1, 2]`. -/
theorem predict1D_per_sample_witness :
    (predict1D [[0, 0]] [[0, 0]] [1, 2]).length = ([1, 2] : List ℝ).length ∧
    (predict1D [[0, 0]] [[0, 0]] [1, 2]).getD 0 0 =
      argmax (forwardRow [[0, 0]] [[0, 0]] [([1, 2] : List ℝ).getD 0 0]) :=
  ⟨(predict1D_per_sample [[0, 0]] [[0, 0]] [1, 2]).1,
    (predict1D_per_sample [[0, 0]] [[0, 0]] [1, 2]).2 0 (by norm_num)⟩

theorem getD_mem {α : Type} (l : List α) (d : α) (j : ℕ) (h : j < l.length) :
    l.getD j d ∈ l := by
  rw [List.getD_eq_getElem _ _ h]
  exact List.getElem_mem h

theorem vsub_vadd_cancel (u w : List ℝ) (h : u.length = w.length) :
    vsub (vadd u w) w = u := by
  induction u generalizing w with
  | nil =>
    cases w with
    | nil => rfl
    | cons b w => simp at h
  | cons a u ih =>
    cases w with
    | nil => simp at h
    | cons b w =>
      show ((a + b) - b) :: vsub (vadd u w) w = a :: u
      rw [add_sub_cancel_right, ih w (by simpa using h)]

theorem madd_getD (A B : List (List ℝ)) (j : ℕ) :
    (madd A B).getD j [] = vadd (A.getD j []) (B.getD j []) := by
  induction A generalizing B j with
  | nil => simp [madd, vadd]
  | cons a A ih =>
    cases B with
    | nil => simp [madd, vadd]
    | cons b B =>
      cases j with
      | zero =>
        show (List.zipWith vadd (a :: A) (b :: B)).getD 0 [] = _
        rw [List.zipWith_cons_cons, List.getD_cons_zero, List.getD_cons_zero,
          List.getD_cons_zero]
      | succ j =>
        show (List.zipWith vadd (a :: A) (b :: B)).getD (j + 1) [] = _
        rw [List.zipWith_cons_cons, List.getD_cons_succ, List.getD_cons_succ,
          List.getD_cons_succ]
        exact ih B j

theorem smulMat_getD (c : ℝ) (A : List (List ℝ)) (j : ℕ) :
    (smulMat c A).getD j [] = smul c (A.getD j []) := by
  by_cases h : j < A.length
  · exact getD_of_lt _ A j [] [] h
  · have h1 : A.length ≤ j := le_of_not_lt h
    rw [List.getD_eq_default _ _ (show (smulMat c A).length ≤ j by
        simpa [smulMat] using h1),
      List.getD_eq_default _ _ h1]
    rfl

theorem madd_length (A B : List (List ℝ)) :
    (madd A B).length = min A.length B.length := by
  simp [madd]

theorem outer_length (v w : List ℝ) : (outer v w).length = v.length := by
  simp [outer]

theorem outer_getD_length (v w : List ℝ) (j : ℕ) (h : j < v.length) :
    ((outer v w).getD j []).length = w.length := by
  rw [outer, getD_of_lt _ v j 0 [] h, smul_length]

theorem d2v_length (theta1 theta2 : List (List ℝ)) (nl yi : ℕ) (xi : List ℝ) :
    (d2v theta1 theta2 nl yi xi).length =
      min (numCols theta2 - 1) theta1.length := by
  simp [d2v, transposeMatVec, z2v, matVec, a1v]

theorem d3v_length (theta1 theta2 : List (List ℝ)) (nl yi : ℕ) (xi : List ℝ) :
    (d3v theta1 theta2 nl yi xi).length = min theta2.length nl := by
  simp [d3v, vsub, hv, matVec, oneHot]

theorem a2v_length (theta1 : List (List ℝ)) (xi : List ℝ) :
    (a2v theta1 xi).length = theta1.length + 1 := by
  simp [a2v, z2v, matVec]

/-- Shape invariant of the accumulation loop: `D1` keeps the shape of
`theta1` (`hls` rows of `ils+1` entries) and `D2` the shape of `theta2`
(`nl` rows of `hls+1` entries). -/
theorem nnAccum_shape (theta1 theta2 : List (List ℝ)) (ils hls nl : ℕ)
    (h1len : theta1.length = hls) (h1r : ∀ r ∈ theta1, r.length = ils + 1)
    (h2len : theta2.length = nl) (h2r : ∀ r ∈ theta2, r.length = hls + 1)
    (hnl : 0 < nl) (samples : List (ℕ × List ℝ))
    (hs : ∀ s ∈ samples, s.2.length = ils) :
    (nnAccum theta1 theta2 nl samples).1.length = hls ∧
    (∀ j, j < hls → ((nnAccum theta1 theta2 nl samples).1.getD j []).length = ils + 1) ∧
    (nnAccum theta1 theta2 nl samples).2.length = nl ∧
    (∀ j, j < nl → ((nnAccum theta1 theta2 nl samples).2.getD j []).length = hls + 1) := by
  have hnc : numCols theta2 = hls + 1 := by
    match theta2, h2len, hnl with
    | r :: rest, _, _ => exact h2r r (by simp)
  have hd2 : ∀ yi xi, (d2v theta1 theta2 nl yi xi).length = hls := by
    intro yi xi
    rw [d2v_length, hnc, h1len]
    omega
  have hd3 : ∀ yi xi, (d3v theta1 theta2 nl yi xi).length = nl := by
    intro yi xi
    rw [d3v_length, h2len]
    omega
  suffices hgen : ∀ (init : List (List ℝ) × List (List ℝ)),
      init.1.length = hls → (∀ j, j < hls → (init.1.getD j []).length = ils + 1) →
      init.2.length = nl → (∀ j, j < nl → (init.2.getD j []).length = hls + 1) →
      (samples.foldl
        (fun D s =>
          (madd D.1 (outer (d2v theta1 theta2 nl s.1 s.2) (a1v s.2)),
            madd D.2 (outer (d3v theta1 theta2 nl s.1 s.2) (a2v theta1 s.2))))
        init).1.length = hls ∧
      (∀ j, j < hls → ((samples.foldl
        (fun D s =>
          (madd D.1 (outer (d2v theta1 theta2 nl s.1 s.2) (a1v s.2)),
            madd D.2 (outer (d3v theta1 theta2 nl s.1 s.2) (a2v theta1 s.2))))
        init).1.getD j []).length = ils + 1) ∧
      (samples.foldl
        (fun D s =>
          (madd D.1 (outer (d2v theta1 theta2 nl s.1 s.2) (a1v s.2)),
            madd D.2 (outer (d3v theta1 theta2 nl s.1 s.2) (a2v theta1 s.2))))
        init).2.length = nl ∧
      (∀ j, j < nl → ((samples.foldl
        (fun D s =>
          (madd D.1 (outer (d2v theta1 theta2 nl s.1 s.2) (a1v s.2)),
            madd D.2 (outer (d3v theta1 theta2 nl s.1 s.2) (a2v theta1 s.2))))
        init).2.getD j []).length = hls + 1) by
    refine hgen (zerosLike theta1, zerosLike theta2) (by simp [zerosLike, h1len]) ?z1 (by simp [zerosLike, h2len]) ?z2
    case z1 =>
      intro j hj
      have hj1 : j < theta1.length := by omega
      show ((theta1.map (fun r => r.map (fun _ => (0:ℝ)))).getD j []).length = ils + 1
      rw [getD_of_lt _ theta1 j [] [] hj1, List.length_map]
      exact h1r _ (getD_mem theta1 [] j hj1)
    case z2 =>
      intro j hj
      have hj2 : j < theta2.length := by omega
      show ((theta2.map (fun r => r.map (fun _ => (0:ℝ)))).getD j []).length = hls + 1
      rw [getD_of_lt _ theta2 j [] [] hj2, List.length_map]
      exact h2r _ (getD_mem theta2 [] j hj2)
  induction samples with
  | nil => exact fun init a b c d => ⟨a, b, c, d⟩
  | cons s samples ih =>
    intro init a b c d
    have hxi : s.2.length = ils := hs s (by simp)
    refine ih (fun t ht => hs t (by simp [ht])) _ ?e1 ?e2 ?e3 ?e4
    case e1 =>
      rw [madd_length, outer_length, hd2, a]
      omega
    case e2 =>
      intro j hj
      rw [madd_getD]
      rw [vadd_length, b j hj, outer_getD_length _ _ _ (by rw [hd2]; exact hj)]
      show min (ils + 1) (a1v s.2).length = ils + 1
      simp [a1v, hxi]
    case e3 =>
      rw [madd_length, outer_length, hd3, c]
      omega
    case e4 =>
      intro j hj
      rw [madd_getD]
      rw [vadd_length, d j hj, outer_getD_length _ _ _ (by rw [hd3]; exact hj),
        a2v_length, h1len]
      omega

/-- The final-gradient step: row 0 is `D[0]/m` exactly (the regularization
term added and then subtracted back out cancels), every later row is
`D[j]/m + (reg_param/m)*T[j]`. -/
theorem finalGrad_rows (D T : List (List ℝ)) (reg_param m : ℝ)
    (hD : 0 < D.length) (hT : 0 < T.length)
    (hrow : (D.getD 0 []).length = (T.getD 0 []).length) :
    (finalGrad D T reg_param m).getD 0 [] = smul (1 / m) (D.getD 0 []) ∧
    ∀ j, 0 < j → (finalGrad D T reg_param m).getD j [] =
      vadd (smul (1 / m) (D.getD j [])) (smul (reg_param / m) (T.getD j [])) := by
  constructor
  · rw [finalGrad]
    rw [getD_set_same _ _ _ _ (by rw [madd_length]; simp [smulMat]; omega),
      madd_getD, smulMat_getD, smulMat_getD]
    exact vsub_vadd_cancel _ _ (by rw [smul_length, smul_length]; exact hrow)
  · intro j hj
    rw [finalGrad]
    rw [getD_set_ne _ _ _ 0 j (by omega), madd_getD, smulMat_getD, smulMat_getD]

/-- **C5.** For every validly shaped input, the gradient blocks returned by
`nnCostFunction`s body satisfy `grad1 = D1/m + (reg_param/m)*theta1` with
row 0's regularization term subtracted back out — so row 0 of `grad1`
equals `D1[0]/m` exactly — and symmetrically for `grad2`/`theta2`. -/
theorem nnCostFunction_grad_regularization
    (theta1 theta2 X : List (List ℝ)) (y : List ℕ) (ils hls nl : ℕ)
    (reg_param : ℝ)
    (h1len : theta1.length = hls) (h1r : ∀ r ∈ theta1, r.length = ils + 1)
    (h2len : theta2.length = nl) (h2r : ∀ r ∈ theta2, r.length = hls + 1)
    (hXr : ∀ r ∈ X, r.length = ils) (hy : y.length = X.length)
    (hhls : 0 < hls) (hnl : 0 < nl) :
    ((nnBody theta1 theta2 X y nl reg_param).2.1.getD 0 [] =
        smul (1 / (y.length : ℝ))
          ((nnAccum theta1 theta2 nl (y.zip X)).1.getD 0 []) ∧
      ∀ j, 0 < j → j < hls →
        (nnBody theta1 theta2 X y nl reg_param).2.1.getD j [] =
          vadd (smul (1 / (y.length : ℝ))
              ((nnAccum theta1 theta2 nl (y.zip X)).1.getD j []))
            (smul (reg_param / (y.length : ℝ)) (theta1.getD j []))) ∧
    ((nnBody theta1 theta2 X y nl reg_param).2.2.getD 0 [] =
        smul (1 / (y.length : ℝ))
          ((nnAccum theta1 theta2 nl (y.zip X)).2.getD 0 []) ∧
      ∀ j, 0 < j → j < nl →
        (nnBody theta1 theta2 X y nl reg_param).2.2.getD j [] =
          vadd (smul (1 / (y.length : ℝ))
              ((nnAccum theta1 theta2 nl (y.zip X)).2.getD j []))
            (smul (reg_param / (y.length : ℝ)) (theta2.getD j []))) := by
  have hs : ∀ s ∈ y.zip X, s.2.length = ils := by
    intro s hsmem
    exact hXr s.2 (List.of_mem_zip hsmem).2
  rcases nnAccum_shape theta1 theta2 ils hls nl h1len h1r h2len h2r hnl
    (y.zip X) hs with ⟨hD1len, hD1r, hD2len, hD2r⟩
  have e1 : (nnBody theta1 theta2 X y nl reg_param).2.1 =
      finalGrad (nnAccum theta1 theta2 nl (y.zip X)).1 theta1 reg_param
        (y.length : ℝ) := rfl
  have e2 : (nnBody theta1 theta2 X y nl reg_param).2.2 =
      finalGrad (nnAccum theta1 theta2 nl (y.zip X)).2 theta2 reg_param
        (y.length : ℝ) := rfl
  have hrow1 : ((nnAccum theta1 theta2 nl (y.zip X)).1.getD 0 []).length =
      (theta1.getD 0 []).length := by
    rw [hD1r 0 hhls]
    exact (h1r _ (getD_mem theta1 [] 0 (by omega))).symm
  have hrow2 : ((nnAccum theta1 theta2 nl (y.zip X)).2.getD 0 []).length =
      (theta2.getD 0 []).length := by
    rw [hD2r 0 hnl]
    exact (h2r _ (getD_mem theta2 [] 0 (by omega))).symm
  rcases finalGrad_rows (nnAccum theta1 theta2 nl (y.zip X)).1 theta1 reg_param
    (y.length : ℝ) (by omega) (by omega) hrow1 with ⟨g10, g1j⟩
  rcases finalGrad_rows (nnAccum theta1 theta2 nl (y.zip X)).2 theta2 reg_param
    (y.length : ℝ) (by omega) (by omega) hrow2 with ⟨g20, g2j⟩
  exact ⟨⟨by rw [e1]; exact g10, fun j hj _ => by rw [e1]; exact g1j j hj⟩,
    ⟨by rw [e2]; exact g20, fun j hj _ => by rw [e2]; exact g2j j hj⟩⟩

/-- Witness for **C5** at `theta1 = [[0,0],[0,0]]`,
`theta2 = [[0,0,0],[0,0,0]]`, `X = [[0]]`, `y = [0]`,
`(ils, hls, nl) = (1, 2, 2)`, `reg_param = 1`: both row-0 identities and
both `j = 1` identities. -/
theorem nnCostFunction_grad_regularization_witness :
    (nnBody [[0, 0], [0, 0]] [[0, 0, 0], [0, 0, 0]] [[0]] [0] 2 1).2.1.getD 0 [] =
      smul (1 / ((([0] : List ℕ)).length : ℝ))
        ((nnAccum [[0, 0], [0, 0]] [[0, 0, 0], [0, 0, 0]] 2
          (([0] : List ℕ).zip [[0]])).1.getD 0 []) ∧
    (nnBody [[0, 0], [0, 0]] [[0, 0, 0], [0, 0, 0]] [[0]] [0] 2 1).2.1.getD 1 [] =
      vadd (smul (1 / ((([0] : List ℕ)).length : ℝ))
          ((nnAccum [[0, 0], [0, 0]] [[0, 0, 0], [0, 0, 0]] 2
            (([0] : List ℕ).zip [[0]])).1.getD 1 []))
        (smul ((1 : ℝ) / ((([0] : List ℕ)).length : ℝ))
          (([[0, 0], [0, 0]] : List (List ℝ)).getD 1 [])) ∧
    (nnBody [[0, 0], [0, 0]] [[0, 0, 0], [0, 0, 0]] [[0]] [0] 2 1).2.2.getD 0 [] =
      smul (1 / ((([0] : List ℕ)).length : ℝ))
        ((nnAccum [[0, 0], [0, 0]] [[0, 0, 0], [0, 0, 0]] 2
          (([0] : List ℕ).zip [[0]])).2.getD 0 []) ∧
    (nnBody [[0, 0], [0, 0]] [[0, 0, 0], [0, 0, 0]] [[0]] [0] 2 1).2.2.getD 1 [] =
      vadd (smul (1 / ((([0] : List ℕ)).length : ℝ))
          ((nnAccum [[0, 0], [0, 0]] [[0, 0, 0], [0, 0, 0]] 2
            (([0] : List ℕ).zip [[0]])).2.getD 1 []))
        (smul ((1 : ℝ) / ((([0] : List ℕ)).length : ℝ))
          (([[0, 0, 0], [0, 0, 0]] : List (List ℝ)).getD 1 [])) := by
  have h := nnCostFunction_grad_regularization [[0, 0], [0, 0]]
    [[0, 0, 0], [0, 0, 0]] [[0]] [0] 1 2 2 1
    (by simp) (by simp) (by simp) (by simp) (by simp) (by simp)
    (by omega) (by omega)
  exact ⟨h.1.1, h.1.2 1 (by omega) (by omega), h.2.1,
    h.2.2 1 (by omega) (by omega)⟩

/-- **C1.** The claim states that `lrCostFunction` excludes the bias entry
`theta[0]` from the regularization sum.  The source line
`(reg_param/m)*np.sum(theta**2)` sums over ALL entries of `theta`, so at
`theta = [1]`, `X = [[0]]`, `y = [0]`, `reg_param = 1` the code returns
`log 2 + 1` while the claimed formula (regularizing indices `1..n-1` only)
gives `log 2`.  The code also contradicts its own gradient, which treats
index 0 as unregularized. -/
theorem lrCost_regularizes_bias :
    lrCost [1] [[0]] [0] 1 = Real.log 2 + 1 ∧ Real.log 2 + 1 ≠ Real.log 2 := by
  constructor
  · show (List.zipWith _ [(0:ℝ)] [[(0:ℝ)]]).sum / _ + _ = _
    simp only [lrCost, dot, sigmoid, List.zipWith, List.sum_cons, List.sum_nil,
      List.map, List.length_cons, List.length_nil]
    norm_num
    rw [show (1:ℝ)/2 = 2⁻¹ by norm_num, Real.log_inv]
    ring
  · intro h
    have : (1 : ℝ) = 0 := by linarith
    norm_num at this
